import Mathlib

/-!
Shallow embedding of the Streamlit time-tracking app (src/app.py).

The data model mirrors the SQLite schema created by init_db (app.py lines
42-89); the operations mirror the database effects of clock_view (lines
181-221), staff_view (lines 312-357), approvals_view (lines 364-421) and
reports_view (lines 428-465).  Timestamps are rationals counting hours
since an arbitrary epoch; the calendar date of a timestamp is its floor
division by 24, so a punch spanning midnight keeps its start date as key.
-/

namespace Tidsapp

/-- Roles, from the CHECK constraint on users.role (app.py line 53). -/
inductive Role where
  | Admin
  | Manager
  | Employee
deriving DecidableEq

/-- A row of the users table (app.py lines 48-56). -/
structure Worker where
  id : Nat
  username : String
  full_name : String
  role : Role
  hourly_rate : ℚ
  pin : Option String
deriving DecidableEq

/-- A row of the punches table (app.py lines 62-71).  A null clock_out
means the punch is open. -/
structure Punch where
  id : Nat
  user_id : Nat
  clock_in : ℚ
  clock_out : Option ℚ
  note : String
  location : String
  approved : Bool
deriving DecidableEq

/-- The persistent store: the users and punches tables together with the
AUTOINCREMENT counters of their primary keys. -/
structure State where
  users : List Worker
  punches : List Punch
  nextUserId : Nat
  nextPunchId : Nat
deriving DecidableEq

/-- Error kinds used by the fallible operations. -/
inductive Err where
  | conflictError
  | invalidStateError
  | notFoundError
  | validationError
deriving DecidableEq

/-- The freshly initialised database: empty tables (init_db only creates
the schema). -/
def initState : State :=
  { users := [], punches := [], nextUserId := 1, nextPunchId := 1 }

/-- The open punches of a worker, i.e. the rows selected by
"WHERE user_id=? AND clock_out IS NULL" (app.py line 192). -/
def openList (s : State) (uid : Nat) : List Punch :=
  s.punches.filter (fun p => decide (p.user_id = uid ∧ p.clock_out = none))

/-- Number of open punches a worker has. -/
def openCount (s : State) (uid : Nat) : Nat :=
  (openList s uid).length

/-- The open punch with the greatest id, i.e. "ORDER BY id DESC LIMIT 1"
(app.py line 192). -/
def latestOpen (s : State) (uid : Nat) : Option Punch :=
  match openList s uid with
  | [] => none
  | p :: ps => some (ps.foldl (fun q r => if q.id ≤ r.id then r else q) p)

/-- Clock-in (app.py lines 211-221): the insert runs only when the worker
has no open punch; the new row has the current time as clock_in, a null
clock_out, the supplied note and location, and approved defaulting to
false (schema line 69). -/
def clockIn (s : State) (uid : Nat) (now : ℚ) (n l : String) :
    Except Err State :=
  match latestOpen s uid with
  | some _ => Except.error Err.conflictError
  | none => Except.ok { s with
      punches := s.punches ++ [⟨s.nextPunchId, uid, now, none, n, l, false⟩],
      nextPunchId := s.nextPunchId + 1 }

/-- The string appended on clock-out: "\n" + text when the text is
nonempty, nothing otherwise (app.py line 206). -/
def appendTag (t : String) : String :=
  if t.isEmpty then t else ("\n") ++ t

/-- The UPDATE run on clock-out (app.py lines 204-207): sets clock_out to
the current time and concatenates the note and location texts onto the
existing fields. -/
def closePunch (now : ℚ) (n l : String) (q : Punch) : Punch :=
  { q with clock_out := some now,
           note := q.note ++ appendTag n,
           location := q.location ++ appendTag l }

/-- Clock-out (app.py lines 197-210): only offered when an open punch
exists; updates the row whose id is the active punch's id. -/
def clockOutAction (s : State) (uid : Nat) (now : ℚ) (n l : String) :
    Except Err State :=
  match latestOpen s uid with
  | none => Except.error Err.invalidStateError
  | some p => Except.ok { s with
      punches := s.punches.map
        (fun q => if q.id = p.id then closePunch now n l q else q) }

/-- Per-row effect of the adjust form (app.py lines 408-417): clock_in is
overwritten when a new value is supplied, clock_out likewise, and approved
is unconditionally written as the checkbox value (line 416). -/
def adjustPunch (newIn newOut : Option ℚ) (approve : Bool) (q : Punch) :
    Punch :=
  { q with clock_in := newIn.getD q.clock_in,
           clock_out := (match newOut with
             | some t => some t
             | none => q.clock_out),
           approved := approve }

/-- The adjust operation of approvals_view (app.py lines 403-421): the
three UPDATEs all target the row with the selected id. -/
def adjust (s : State) (pid : Nat) (newIn newOut : Option ℚ)
    (approve : Bool) : State :=
  { s with
    punches := s.punches.map
      (fun q => if q.id = pid then adjustPunch newIn newOut approve q
        else q) }

/-- The "Ny" branch of staff_view (app.py lines 338-342): a plain INSERT,
so the only uniqueness the store enforces is the UNIQUE constraint on
username (schema line 50); pin carries no constraint (line 55). -/
def createWorker (s : State) (un fn : String) (r : Role) (rate : ℚ)
    (pin : Option String) : Except Err State :=
  if s.users.any (fun u => decide (u.username = un)) then
    Except.error Err.conflictError
  else Except.ok { s with
    users := s.users ++ [⟨s.nextUserId, un, fn, r, rate, pin⟩],
    nextUserId := s.nextUserId + 1 }

/-- States reachable from the fresh database by the core operations. -/
inductive Reachable : State → Prop where
  | init : Reachable initState
  | stepIn (s s' : State) (uid : Nat) (now : ℚ) (n l : String) :
      Reachable s → clockIn s uid now n l = Except.ok s' → Reachable s'
  | stepOut (s s' : State) (uid : Nat) (now : ℚ) (n l : String) :
      Reachable s → clockOutAction s uid now n l = Except.ok s' →
      Reachable s'
  | stepAdjust (s : State) (pid : Nat) (ni no : Option ℚ) (ap : Bool) :
      Reachable s → Reachable (adjust s pid ni no ap)
  | stepCreate (s s' : State) (un fn : String) (r : Role) (rate : ℚ)
      (pin : Option String) :
      Reachable s → createWorker s un fn r rate pin = Except.ok s' →
      Reachable s'

/-- Rounding to two decimal places, as pandas round(2) applied per punch
(app.py line 451). -/
def round2 (x : ℚ) : ℚ :=
  ((round (x * 100) : ℤ) : ℚ) / 100

/-- Hours of one punch (app.py line 451): difference clock_out minus
clock_in in fractional hours, with a null clock_out filled as 0, rounded
to two decimals. -/
def punchHours (p : Punch) : ℚ :=
  match p.clock_out with
  | none => 0
  | some t => round2 (t - p.clock_in)

/-- Calendar date of a timestamp (app.py line 454 takes dt.date of the
clock_in). -/
def dayOf (t : ℚ) : ℤ :=
  ⌊t / 24⌋

/-- The LEFT JOIN of a punch's user (app.py line 438): the first users row
with the matching id. -/
def userOf (users : List Worker) (uid : Nat) : Option Worker :=
  users.find? (fun u => decide (u.id = uid))

/-- The date-range filter of the report query (app.py line 439): clock_in
in [start 00:00, end+1day 00:00), expressed on calendar days. -/
def inRange (a b : ℤ) (p : Punch) : Bool :=
  decide (a ≤ dayOf p.clock_in ∧ dayOf p.clock_in ≤ b)

/-- One intermediate row of the report dataframe, after the join and the
hours computation (app.py lines 436-451). -/
structure AggRec where
  name : String
  day : ℤ
  hours : ℚ
  rate : ℚ
deriving DecidableEq

/-- The dataframe row a punch yields, when it is in range and its user
exists; a punch whose user is missing has a NaN name and is dropped by
the later groupby, hence none here. -/
def recFor (users : List Worker) (a b : ℤ) (p : Punch) : Option AggRec :=
  if inRange a b p then
    (userOf users p.user_id).map (fun u =>
      { name := u.full_name, day := dayOf p.clock_in,
        hours := punchHours p, rate := u.hourly_rate })
  else none

/-- All dataframe rows of the report query. -/
def recsOf (users : List Worker) (punches : List Punch) (a b : ℤ) :
    List AggRec :=
  punches.filterMap (recFor users a b)

/-- The distinct groupby keys (full_name, date) in first-appearance
order. -/
def keysOf (rs : List AggRec) : List (String × ℤ) :=
  (rs.map (fun r => (r.name, r.day))).dedup

/-- The rows of one (full_name, date) group. -/
def groupOf (rs : List AggRec) (k : String × ℤ) : List AggRec :=
  rs.filter (fun r => decide ((r.name, r.day) = k))

/-- Summed hours of a group (app.py line 455, agg hours sum). -/
def groupHours (rs : List AggRec) (k : String × ℤ) : ℚ :=
  ((groupOf rs k).map AggRec.hours).sum

/-- Maximum of a nonempty list, as pandas max aggregation; the empty case
is never reached because groups are nonempty. -/
def listMax : List ℚ → ℚ
  | [] => 0
  | x :: xs => xs.foldl max x

/-- Rate of a group (app.py line 455, agg hourly_rate max). -/
def groupRate (rs : List AggRec) (k : String × ℤ) : ℚ :=
  listMax ((groupOf rs k).map AggRec.rate)

/-- The overtime clip (app.py line 456): (hours - 8).clip(lower=0). -/
def otOf (h : ℚ) : ℚ :=
  max (h - 8) 0

/-- A row of the final daily summary (app.py lines 455-458). -/
structure DailyRow where
  full_name : String
  date : ℤ
  hours : ℚ
  hourly_rate : ℚ
  ot_hours : ℚ
  reg_hours : ℚ
  pay : ℚ
deriving DecidableEq

/-- The summary row of one groupby key (app.py lines 455-458). -/
def rowFor (rs : List AggRec) (k : String × ℤ) : DailyRow :=
  { full_name := k.1, date := k.2,
    hours := groupHours rs k,
    hourly_rate := groupRate rs k,
    ot_hours := otOf (groupHours rs k),
    reg_hours := groupHours rs k - otOf (groupHours rs k),
    pay := (groupHours rs k - otOf (groupHours rs k)) * groupRate rs k
      + otOf (groupHours rs k) * groupRate rs k * (3 / 2) }

/-- The payroll aggregation of reports_view (app.py lines 433-458): one
summary row per distinct (full_name, date) key of the joined dataframe. -/
def aggregate (s : State) (a b : ℤ) : List DailyRow :=
  (keysOf (recsOf s.users s.punches a b)).map
    (rowFor (recsOf s.users s.punches a b))

/-- Contribution of a single punch to the group of key k; zero when the
punch is out of range, its user is missing, or its key differs. -/
def contrib (users : List Worker) (a b : ℤ) (k : String × ℤ) (p : Punch) :
    ℚ :=
  match recFor users a b p with
  | some r => if (r.name, r.day) = k then r.hours else 0
  | none => 0

/-- Total rounded hours of one worker (by id) on one date. -/
def workerDayHours (punches : List Punch) (uid : Nat) (d : ℤ) : ℚ :=
  ((punches.filter (fun p =>
    decide (p.user_id = uid ∧ dayOf p.clock_in = d))).map punchHours).sum

/-- Follows the spec's words for the Payroll Aggregator (spec section 4.3):
one row per (worker, date) pair with at least one closed punch in range,
hours summed per worker id, and pay computed with that worker's own
current hourly rate.  This definition exists only to be compared with the
implementation's aggregate, which groups by display name instead. -/
def aggregateByWorkerSpec (s : State) (a b : ℤ) : List DailyRow :=
  (((s.punches.filter (fun p => inRange a b p && p.clock_out.isSome)).map
      (fun p => (p.user_id, dayOf p.clock_in))).dedup).filterMap
    (fun k => (userOf s.users k.1).map (fun u =>
      let h := ((s.punches.filter (fun p =>
        decide (p.user_id = k.1 ∧ dayOf p.clock_in = k.2)
          && inRange a b p)).map punchHours).sum
      { full_name := u.full_name, date := k.2, hours := h,
        hourly_rate := u.hourly_rate,
        ot_hours := otOf h, reg_hours := h - otOf h,
        pay := (h - otOf h) * u.hourly_rate
          + otOf h * u.hourly_rate * (3 / 2) }))

/-- A sample worker, mirroring the seeded employee (app.py line 135). -/
def erikW : Worker :=
  { id := 1, username := ("erik"), full_name := ("Erik Ek"),
    role := Role.Employee, hourly_rate := 145, pin := some ("2222") }

/-- State after creating erikW in the fresh database. -/
def demo1 : State :=
  { users := [erikW], punches := [], nextUserId := 2, nextPunchId := 1 }

/-- State after erikW clocks in at hour 9. -/
def demo2 : State :=
  { users := [erikW],
    punches := [⟨1, 1, 9, none, ("morning"), ("Bar"), false⟩],
    nextUserId := 2, nextPunchId := 2 }

/-- A state holding one approved, closed punch. -/
def cex1State : State :=
  { users := [erikW],
    punches := [⟨1, 1, 9, some 17, ("x"), ("y"), true⟩],
    nextUserId := 2, nextPunchId := 2 }

/-- Another state holding one approved, closed punch. -/
def cex2State : State :=
  { users := [erikW],
    punches := [⟨7, 1, 8, some 16, ("a"), ("b"), true⟩],
    nextUserId := 2, nextPunchId := 8 }

/-- A state holding one unapproved, closed punch from hour 10 to 12. -/
def cex3State : State :=
  { users := [erikW],
    punches := [⟨1, 1, 10, some 12, (""), (""), false⟩],
    nextUserId := 2, nextPunchId := 2 }

/-- A directory holding erikW, whose pin is "2222". -/
def cex4State : State :=
  { users := [erikW], punches := [], nextUserId := 2, nextPunchId := 1 }

/-- The directory after adding a second worker that reuses pin "2222". -/
def cex4After : State :=
  { users := [erikW, ⟨2, ("maja"), ("Maja M"), Role.Employee, 120, some ("2222")⟩],
    punches := [], nextUserId := 3, nextPunchId := 1 }

/-- A state whose only punch is open (clock_out null), on day 0. -/
def cex6State : State :=
  { users := [erikW],
    punches := [⟨1, 1, 9, none, (""), (""), false⟩],
    nextUserId := 2, nextPunchId := 2 }

/-- First of two distinct workers sharing a display name. -/
def annaOne : Worker :=
  { id := 1, username := ("anna1"), full_name := ("Anna A"),
    role := Role.Employee, hourly_rate := 100, pin := none }

/-- Second of two distinct workers sharing a display name. -/
def annaTwo : Worker :=
  { id := 2, username := ("anna2"), full_name := ("Anna A"),
    role := Role.Employee, hourly_rate := 200, pin := none }

/-- Two same-named workers, each with a 5-hour closed punch on day 0. -/
def sharedNameState : State :=
  { users := [annaOne, annaTwo],
    punches := [⟨1, 1, 0, some 5, (""), (""), false⟩,
                ⟨2, 2, 0, some 5, (""), (""), false⟩],
    nextUserId := 3, nextPunchId := 3 }

/-- The single merged row the implementation produces for
sharedNameState on day 0. -/
def mergedRow : DailyRow :=
  { full_name := ("Anna A"), date := 0, hours := 10, hourly_rate := 200,
    ot_hours := 2, reg_hours := 8, pay := 2200 }

/-- A state with one closed 5-hour punch and one open punch, both on
day 0. -/
def mixState : State :=
  { users := [erikW],
    punches := [⟨1, 1, 9, some 14, (""), (""), false⟩,
                ⟨2, 1, 20, none, (""), (""), false⟩],
    nextUserId := 2, nextPunchId := 3 }

/-- The report row for mixState on day 0. -/
def mixRow : DailyRow :=
  { full_name := ("Erik Ek"), date := 0, hours := 5, hourly_rate := 145,
    ot_hours := 0, reg_hours := 5, pay := 725 }

/-- The open punch of the clock-out witness state. -/
def openP : Punch :=
  { id := 1, user_id := 1, clock_in := 9, clock_out := none,
    note := ("start"), location := ("Bar"), approved := false }

/-- A state in which erikW has the open punch openP. -/
def c9State : State :=
  { users := [erikW], punches := [openP], nextUserId := 2,
    nextPunchId := 2 }

/-- The closed punch of cex3State. -/
def cex3P : Punch :=
  ⟨1, 1, 10, some 12, (""), (""), false⟩

/- ------------------------------------------------------------------ -/
/- Theorems                                                           -/
/- ------------------------------------------------------------------ -/

theorem adjustPunch_noFields (q : Punch) :
    adjustPunch none none false q = { q with approved := false } :=
  rfl

/-- Claim C1 (amended): adjust with no new clock-in, no new clock-out and
approve unset leaves every field but approved unchanged and writes
approved as false; the call is a no-op exactly when the targeted record
was already unapproved. -/
theorem adjust_noFields_setsApprovedFalse (s : State) (pid : Nat) :
    (adjust s pid none none false).users = s.users ∧
    (adjust s pid none none false).punches = s.punches.map
      (fun q => if q.id = pid then { q with approved := false } else q) ∧
    ((∀ q ∈ s.punches, q.id = pid → q.approved = false) →
      adjust s pid none none false = s) := by
  refine ⟨rfl, ?_, ?_⟩
  · unfold adjust
    exact List.map_congr_left (fun q _ => by
      by_cases h : q.id = pid <;> simp [h, adjustPunch_noFields])
  · intro h
    show { s with punches := _ } = s
    have hm : s.punches.map
        (fun q => if q.id = pid then adjustPunch none none false q else q) =
        s.punches := by
      have := List.map_congr_left (l := s.punches)
        (f := fun q => if q.id = pid then adjustPunch none none false q
          else q) (g := id) (fun q hq => by
            by_cases hid : q.id = pid
            · simp only [hid, if_pos, adjustPunch_noFields, id]
              have := h q hq hid
              cases q
              simp_all
            · simp [hid])
      simpa using this
    rw [hm]

/-- Claim C1 counterexample: on a state whose only punch is approved,
adjust with no fields supplied flips the approved flag to false, so the
record is not identical to its prior state. -/
theorem adjust_noFields_cex :
    cex1State.punches.map Punch.approved = [true] ∧
    (adjust cex1State 1 none none false).punches.map Punch.approved =
      [false] ∧
    adjust cex1State 1 none none false ≠ cex1State := by
  refine ⟨rfl, rfl, fun h => ?_⟩
  have h2 := congrArg (fun st => st.punches.map Punch.approved) h
  simp only [adjust, cex1State] at h2
  simp [adjustPunch] at h2

/-- Claim C1 witness: on a state whose only punch is unapproved, the
no-fields adjust really is the identity. -/
theorem adjust_noFields_witness :
    adjust cex3State 1 none none false = cex3State :=
  (adjust_noFields_setsApprovedFalse cex3State 1).2.2 (by decide)

/-- Claim C2 (amended): clockIn appends a record with approved = false and
touches no existing approved flag, clockOut preserves every approved
flag, and adjust writes the supplied approve value into the targeted
record — so approved can transition true to false whenever adjust is
called with approve unset. -/
theorem approved_transitions (s : State) (uid : Nat) (now : ℚ)
    (n l : String) (s' : State) :
    (clockIn s uid now n l = Except.ok s' →
      s'.punches.map Punch.approved =
        s.punches.map Punch.approved ++ [false]) ∧
    (clockOutAction s uid now n l = Except.ok s' →
      s'.punches.map Punch.approved = s.punches.map Punch.approved) ∧
    (∀ pid ni no ap, (adjust s pid ni no ap).punches.map Punch.approved =
      s.punches.map (fun q => if q.id = pid then ap else q.approved)) := by
  refine ⟨?_, ?_, ?_⟩
  · intro h
    cases hL : latestOpen s uid with
    | some p => rw [clockIn, hL] at h; cases h
    | none =>
      rw [clockIn, hL] at h
      cases h
      simp
  · intro h
    cases hL : latestOpen s uid with
    | none => rw [clockOutAction, hL] at h; cases h
    | some p =>
      rw [clockOutAction, hL] at h
      cases h
      simp only [List.map_map]
      exact List.map_congr_left (fun q _ => by
        by_cases hid : q.id = p.id <;> simp [hid, closePunch, Function.comp])
  · intro pid ni no ap
    simp only [adjust, List.map_map]
    exact List.map_congr_left (fun q _ => by
      by_cases hid : q.id = pid <;> simp [hid, adjustPunch, Function.comp])

/-- Claim C2 counterexample: an approved record becomes unapproved when a
manager saves an adjustment (here a new clock-out) without ticking the
approve box. -/
theorem approved_transitions_cex :
    cex2State.punches.map Punch.approved = [true] ∧
    (adjust cex2State 7 none (some 18) false).punches.map Punch.approved =
      [false] :=
  ⟨rfl, rfl⟩

/-- Claim C2 witness: clocking in from demo1 yields demo2, whose only
punch is unapproved. -/
theorem approved_transitions_witness :
    demo2.punches.map Punch.approved =
      demo1.punches.map Punch.approved ++ [false] :=
  (approved_transitions demo1 1 9 ("morning") ("Bar") demo2).1 rfl

/-- Claim C3 (amended): adjust performs no ordering validation: supplying
a new clock-out earlier than the record's clock-in always succeeds (the
operation is total) and leaves the record with clock-out strictly before
clock-in. -/
theorem adjust_overwrites_without_validation (s : State) (pid : Nat)
    (t : ℚ) (ap : Bool) (q : Punch) (hq : q ∈ s.punches)
    (hid : q.id = pid) (hlt : t < q.clock_in) :
    adjustPunch none (some t) ap q ∈
      (adjust s pid none (some t) ap).punches ∧
    (adjustPunch none (some t) ap q).id = pid ∧
    (adjustPunch none (some t) ap q).clock_in = q.clock_in ∧
    (adjustPunch none (some t) ap q).clock_out = some t ∧
    t < (adjustPunch none (some t) ap q).clock_in := by
  refine ⟨?_, hid, rfl, rfl, hlt⟩
  exact List.mem_map.mpr ⟨q, hq, by simp [hid]⟩

/-- Claim C3 counterexample: starting from a record clock-in 10,
clock-out 12, the adjust that sets the new clock-out to 5 goes through
and leaves clock-out 5 strictly before clock-in 10 — no ValidationError
path exists. -/
theorem adjust_validation_cex :
    (adjust cex3State 1 none (some 5) false).punches.map
      (fun q => (q.clock_in, q.clock_out)) = [(10, some 5)] ∧
    ((5 : ℚ) < 10) :=
  ⟨rfl, by norm_num⟩

/-- Claim C3 witness: the amended statement applied to cex3State. -/
theorem adjust_overwrites_witness :
    adjustPunch none (some 5) false cex3P ∈
      (adjust cex3State 1 none (some 5) false).punches ∧
    (adjustPunch none (some 5) false cex3P).id = 1 ∧
    (adjustPunch none (some 5) false cex3P).clock_in = cex3P.clock_in ∧
    (adjustPunch none (some 5) false cex3P).clock_out = some 5 ∧
    (5 : ℚ) < (adjustPunch none (some 5) false cex3P).clock_in :=
  adjust_overwrites_without_validation cex3State 1 5 false cex3P
    (List.Mem.head _) rfl (by norm_num [cex3P])

/-- Claim C4 (amended): creating a worker fails with ConflictError (and
adds nothing) exactly when the username is already taken; a duplicate
pin with a fresh username is accepted and the worker row is appended. -/
theorem createWorker_username_unique (s : State) (un fn : String)
    (r : Role) (rate : ℚ) (pin : Option String) :
    ((∃ u ∈ s.users, u.username = un) →
      createWorker s un fn r rate pin = Except.error Err.conflictError) ∧
    ((∀ u ∈ s.users, u.username ≠ un) →
      createWorker s un fn r rate pin = Except.ok { s with
        users := s.users ++ [⟨s.nextUserId, un, fn, r, rate, pin⟩],
        nextUserId := s.nextUserId + 1 }) := by
  constructor
  · rintro ⟨u, hu, hname⟩
    have : s.users.any (fun u => decide (u.username = un)) = true :=
      List.any_eq_true.mpr ⟨u, hu, by simp [hname]⟩
    rw [createWorker, if_pos this]
  · intro h
    have : s.users.any (fun u => decide (u.username = un)) = false := by
      rw [List.any_eq_false]
      intro u hu
      simp [h u hu]
    rw [createWorker, this]
    simp

/-- Claim C4 counterexample: the directory already holds erikW whose pin
is "2222", yet creating a second worker with that same pin succeeds and
appends the row — no ConflictError. -/
theorem createWorker_dup_pin_cex :
    erikW.pin = some ("2222") ∧ erikW ∈ cex4State.users ∧
    createWorker cex4State ("maja") ("Maja M") Role.Employee 120
      (some ("2222")) = Except.ok cex4After ∧
    cex4After.users.length = 2 :=
  ⟨rfl, List.Mem.head _, rfl, rfl⟩

/-- Claim C4 witness: duplicate username rejected, fresh username (with a
duplicate pin) accepted. -/
theorem createWorker_username_unique_witness :
    createWorker cex4State ("erik") ("E Two") Role.Manager 150 none =
      Except.error Err.conflictError ∧
    createWorker cex4State ("maja") ("Maja M") Role.Employee 120
      (some ("2222")) = Except.ok cex4After := by
  constructor
  · exact (createWorker_username_unique cex4State ("erik") ("E Two")
      Role.Manager 150 none).1 ⟨erikW, List.Mem.head _, rfl⟩
  · have h := (createWorker_username_unique cex4State ("maja") ("Maja M")
      Role.Employee 120 (some ("2222"))).2 (by decide)
    rw [h]
    rfl

theorem length_filter_map_le {α : Type} (f : α → α) (pr : α → Bool)
    (h : ∀ x, pr (f x) = true → pr x = true) (l : List α) :
    ((l.map f).filter pr).length ≤ (l.filter pr).length := by
  induction l with
  | nil => simp
  | cons x xs ih =>
    simp only [List.map_cons, List.filter_cons]
    by_cases h1 : pr (f x) = true
    · rw [if_pos h1, if_pos (h x h1)]
      simpa using ih
    · rw [if_neg h1]
      by_cases h2 : pr x = true
      · rw [if_pos h2]
        exact le_trans ih (Nat.le_succ _)
      · rw [if_neg h2]
        exact ih

theorem latestOpen_none_of_nil {s : State} {uid : Nat}
    (h : openList s uid = []) : latestOpen s uid = none := by
  rw [latestOpen, h]

theorem openList_nil_of_latestOpen_none {s : State} {uid : Nat}
    (h : latestOpen s uid = none) : openList s uid = [] := by
  cases hL : openList s uid with
  | nil => rfl
  | cons p ps => rw [latestOpen, hL] at h; cases h

theorem clockIn_ok_shape {s s' : State} {uid : Nat} {now : ℚ}
    {n l : String} (h : clockIn s uid now n l = Except.ok s') :
    openList s uid = [] ∧
    s' = { s with
      punches := s.punches ++ [⟨s.nextPunchId, uid, now, none, n, l, false⟩],
      nextPunchId := s.nextPunchId + 1 } := by
  cases hL : latestOpen s uid with
  | some p => rw [clockIn, hL] at h; cases h
  | none =>
    rw [clockIn, hL] at h
    cases h
    exact ⟨openList_nil_of_latestOpen_none hL, rfl⟩

theorem openCount_clockIn {s s' : State} {uid : Nat} {now : ℚ}
    {n l : String} (h : clockIn s uid now n l = Except.ok s')
    (uid' : Nat) : openCount s' uid' ≤ max 1 (openCount s uid') := by
  obtain ⟨hnil, hs⟩ := clockIn_ok_shape h
  subst hs
  by_cases he : uid' = uid
  · subst he
    have : openList { s with
        punches := s.punches ++ [⟨s.nextPunchId, uid', now, none, n, l, false⟩],
        nextPunchId := s.nextPunchId + 1 } uid' =
        openList s uid' ++ [⟨s.nextPunchId, uid', now, none, n, l, false⟩] := by
      simp [openList, List.filter_append]
    rw [openCount, this, hnil]
    simp
  · have : openList { s with
        punches := s.punches ++ [⟨s.nextPunchId, uid, now, none, n, l, false⟩],
        nextPunchId := s.nextPunchId + 1 } uid' = openList s uid' := by
      simp [openList, List.filter_append, Ne.symm he]
    rw [openCount, this]
    exact le_max_of_le_right le_rfl

theorem openCount_clockOut {s s' : State} {uid : Nat} {now : ℚ}
    {n l : String} (h : clockOutAction s uid now n l = Except.ok s')
    (uid' : Nat) : openCount s' uid' ≤ openCount s uid' := by
  cases hL : latestOpen s uid with
  | none => rw [clockOutAction, hL] at h; cases h
  | some p =>
    rw [clockOutAction, hL] at h
    cases h
    apply length_filter_map_le
    intro q hq
    by_cases hid : q.id = p.id
    · rw [if_pos hid] at hq
      simp [closePunch] at hq
    · rwa [if_neg hid] at hq

theorem openCount_adjust (s : State) (pid : Nat) (ni no : Option ℚ)
    (ap : Bool) (uid' : Nat) :
    openCount (adjust s pid ni no ap) uid' ≤ openCount s uid' := by
  apply length_filter_map_le
  intro q hq
  by_cases hid : q.id = pid
  · rw [if_pos hid] at hq
    simp only [adjustPunch, decide_eq_true_eq] at hq
    cases no with
    | some t => simp at hq
    | none => simpa using hq
  · rwa [if_neg hid] at hq

theorem openCount_create {s s' : State} {un fn : String} {r : Role}
    {rate : ℚ} {pin : Option String}
    (h : createWorker s un fn r rate pin = Except.ok s') (uid' : Nat) :
    openCount s' uid' = openCount s uid' := by
  by_cases hc : s.users.any (fun u => decide (u.username = un)) = true
  · rw [createWorker, if_pos hc] at h; cases h
  · rw [createWorker, if_neg hc] at h
    cases h
    rfl

theorem reachable_openCount {s : State} (h : Reachable s) (uid : Nat) :
    openCount s uid ≤ 1 := by
  induction h generalizing uid with
  | init => simp [openCount, openList, initState]
  | stepIn s0 s' uid0 now n l _ hok ih =>
    exact le_trans (openCount_clockIn hok uid) (max_le le_rfl (ih uid))
  | stepOut s0 s' uid0 now n l _ hok ih =>
    exact le_trans (openCount_clockOut hok uid) (ih uid)
  | stepAdjust s0 pid ni no ap _ ih =>
    exact le_trans (openCount_adjust s0 pid ni no ap uid) (ih uid)
  | stepCreate s0 s' un fn r rate pin _ hok ih =>
    exact le_of_eq_of_le (openCount_create hok uid) (ih uid)

theorem clockIn_conflict_of_open {s : State} {uid : Nat}
    (h : ∃ p ∈ s.punches, p.user_id = uid ∧ p.clock_out = none)
    (now : ℚ) (n l : String) :
    clockIn s uid now n l = Except.error Err.conflictError := by
  obtain ⟨p, hp, hu, ho⟩ := h
  have hmem : p ∈ openList s uid := by
    rw [openList, List.mem_filter]
    exact ⟨hp, by simp [hu, ho]⟩
  cases hL : openList s uid with
  | nil => rw [hL] at hmem; cases hmem
  | cons q qs => rw [clockIn, latestOpen, hL]

/-- Claim C5: in every state reachable by the core operations each worker
has at most one open punch, and clocking in while an open punch exists
fails with ConflictError (the insert branch is never reached, so no
record is created). -/
theorem atMostOneOpenPunch (s : State) (h : Reachable s) :
    (∀ uid, openCount s uid ≤ 1) ∧
    (∀ uid now n l, (∃ p ∈ s.punches, p.user_id = uid ∧ p.clock_out = none) →
      clockIn s uid now n l = Except.error Err.conflictError) :=
  ⟨fun uid => reachable_openCount h uid,
   fun _ now n l hex => clockIn_conflict_of_open hex now n l⟩

/-- Claim C5 witness: demo2 is reachable (create erik, then clock in);
its single open punch makes a second clock-in fail with ConflictError. -/
theorem atMostOneOpenPunch_witness :
    openCount demo2 1 ≤ 1 ∧
    clockIn demo2 1 10 ("") ("") = Except.error Err.conflictError := by
  have hreach : Reachable demo2 :=
    Reachable.stepIn demo1 demo2 1 9 ("morning") ("Bar")
      (Reachable.stepCreate initState demo1 ("erik") ("Erik Ek")
        Role.Employee 145 (some ("2222")) Reachable.init rfl) rfl
  have h := atMostOneOpenPunch demo2 hreach
  exact ⟨h.1 1, h.2 1 10 ("") ("")
    ⟨⟨1, 1, 9, none, ("morning"), ("Bar"), false⟩, List.Mem.head _,
      rfl, rfl⟩⟩

theorem recFor_eq_some {us : List Worker} {a b : ℤ} {p : Punch}
    {r : AggRec} :
    recFor us a b p = some r ↔
    inRange a b p = true ∧ ∃ u, userOf us p.user_id = some u ∧
      r = ⟨u.full_name, dayOf p.clock_in, punchHours p, u.hourly_rate⟩ := by
  constructor
  · intro h
    unfold recFor at h
    by_cases hc : inRange a b p = true
    · rw [if_pos hc] at h
      rcases Option.map_eq_some'.mp h with ⟨u, hu, hr⟩
      exact ⟨hc, u, hu, hr.symm⟩
    · rw [if_neg hc] at h
      cases h
  · rintro ⟨hc, u, hu, hr⟩
    unfold recFor
    rw [if_pos hc, hu]
    simp [hr]

theorem mem_recsOf {us : List Worker} {ps : List Punch} {a b : ℤ}
    {r : AggRec} :
    r ∈ recsOf us ps a b ↔ ∃ p ∈ ps, recFor us a b p = some r := by
  simp [recsOf, List.mem_filterMap]

theorem groupHours_cons (us : List Worker) (a b : ℤ) (k : String × ℤ)
    (p : Punch) (ps : List Punch) :
    groupHours (recsOf us (p :: ps) a b) k =
      contrib us a b k p + groupHours (recsOf us ps a b) k := by
  unfold groupHours groupOf recsOf contrib
  rw [List.filterMap_cons]
  cases hf : recFor us a b p with
  | none => simp
  | some r =>
    by_cases hk : (r.name, r.day) = k
    · simp [List.filter_cons, hk]
    · simp [List.filter_cons, hk]

theorem contrib_of_recFor_some {us : List Worker} {a b : ℤ}
    {k : String × ℤ} {p : Punch} {r : AggRec}
    (h : recFor us a b p = some r) :
    contrib us a b k p = if (r.name, r.day) = k then r.hours else 0 := by
  unfold contrib
  rw [h]

theorem contrib_of_recFor_none {us : List Worker} {a b : ℤ}
    {k : String × ℤ} {p : Punch} (h : recFor us a b p = none) :
    contrib us a b k p = 0 := by
  unfold contrib
  rw [h]

theorem contrib_of_open {us : List Worker} {a b : ℤ} {k : String × ℤ}
    {p : Punch} (h : p.clock_out = none) : contrib us a b k p = 0 := by
  unfold contrib
  cases hf : recFor us a b p with
  | none => rfl
  | some r =>
    have hr : r.hours = 0 := by
      rcases recFor_eq_some.mp hf with ⟨_, u, _, rfl⟩
      simp [punchHours, h]
    by_cases hk : (r.name, r.day) = k <;> simp [hk, hr]

theorem groupHours_closed (us : List Worker) (a b : ℤ) (k : String × ℤ) :
    ∀ ps : List Punch,
      groupHours (recsOf us ps a b) k =
      groupHours (recsOf us (ps.filter (fun q => q.clock_out.isSome)) a b)
        k := by
  intro ps
  induction ps with
  | nil => rfl
  | cons p ps ih =>
    rw [groupHours_cons]
    cases ho : p.clock_out with
    | none =>
      have hfil : (p :: ps).filter (fun q => q.clock_out.isSome) =
          ps.filter (fun q => q.clock_out.isSome) := by
        simp [List.filter_cons, ho]
      rw [contrib_of_open ho, zero_add, hfil, ih]
    | some t =>
      have hfil : (p :: ps).filter (fun q => q.clock_out.isSome) =
          p :: ps.filter (fun q => q.clock_out.isSome) := by
        simp [List.filter_cons, ho]
      rw [hfil, groupHours_cons, ih]

theorem mem_keysOf {rs : List AggRec} {k : String × ℤ} :
    k ∈ keysOf rs ↔ ∃ r ∈ rs, (r.name, r.day) = k := by
  simp [keysOf, List.mem_dedup, List.mem_map]

theorem mem_aggregate {s : State} {a b : ℤ} {row : DailyRow} :
    row ∈ aggregate s a b ↔
    ∃ k ∈ keysOf (recsOf s.users s.punches a b),
      row = rowFor (recsOf s.users s.punches a b) k := by
  simp [aggregate, List.mem_map, eq_comm]

/-- Claim C6 (amended): aggregate produces rows with pairwise distinct
(name, date) keys, and a row for (name, date) exists exactly when some
punch — open or closed — has its clock-in on that date inside the range
and belongs to a worker with that display name; in particular a pair
whose punches in range are all open still gets a (zero-hour) row. -/
theorem aggregate_row_keys (s : State) (a b : ℤ) :
    ((aggregate s a b).map (fun r => (r.full_name, r.date))).Nodup ∧
    (∀ nm d,
      ((nm, d) ∈ (aggregate s a b).map (fun r => (r.full_name, r.date)) ↔
      ∃ p ∈ s.punches, inRange a b p = true ∧
        ∃ u, userOf s.users p.user_id = some u ∧
          u.full_name = nm ∧ dayOf p.clock_in = d)) := by
  have hmap : (aggregate s a b).map (fun r => (r.full_name, r.date)) =
      keysOf (recsOf s.users s.punches a b) := by
    rw [aggregate, List.map_map]
    have hfun : ((fun r : DailyRow => (r.full_name, r.date)) ∘
        rowFor (recsOf s.users s.punches a b)) = id := by
      funext k
      rfl
    rw [hfun, List.map_id]
  constructor
  · rw [hmap]
    exact List.nodup_dedup _
  · intro nm d
    rw [hmap, mem_keysOf]
    constructor
    · rintro ⟨r, hr, hk⟩
      rcases mem_recsOf.mp hr with ⟨p, hp, hf⟩
      rcases recFor_eq_some.mp hf with ⟨hin, u, hu, rfl⟩
      simp only [Prod.mk.injEq] at hk
      exact ⟨p, hp, hin, u, hu, hk.1, hk.2⟩
    · rintro ⟨p, hp, hin, u, hu, h1, h2⟩
      refine ⟨⟨u.full_name, dayOf p.clock_in, punchHours p, u.hourly_rate⟩,
        ?_, by simp [h1, h2]⟩
      exact mem_recsOf.mpr ⟨p, hp, recFor_eq_some.mpr ⟨hin, u, hu, rfl⟩⟩

/-- Claim C6 counterexample: cex6State's only punch is open, yet the
aggregate over its date still produces a row for it. -/
theorem aggregate_openRow_cex :
    (∀ p ∈ cex6State.punches, p.clock_out = none) ∧
    (aggregate cex6State 0 0).length = 1 := by
  constructor
  · decide
  · norm_num [aggregate, recsOf, recFor, inRange, dayOf, userOf, keysOf,
      groupOf, groupHours, groupRate, rowFor, otOf, listMax, punchHours,
      round2, round_eq, cex6State, erikW, List.filterMap, List.dedup,
      List.find?, List.filter]

/-- Claim C6 witness: the key characterisation applied to cex6State. -/
theorem aggregate_row_keys_witness :
    ((aggregate cex6State 0 0).map
      (fun r => (r.full_name, r.date))).Nodup ∧
    (("Erik Ek", (0 : ℤ)) ∈ (aggregate cex6State 0 0).map
      (fun r => (r.full_name, r.date))) := by
  have h := aggregate_row_keys cex6State 0 0
  refine ⟨h.1, (h.2 ("Erik Ek") 0).mpr ?_⟩
  refine ⟨⟨1, 1, 9, none, (""), (""), false⟩, List.Mem.head _, ?_,
    erikW, rfl, rfl, ?_⟩
  · norm_num [inRange, dayOf]
  · norm_num [dayOf]

/-- Claim C7: a punch with a null clock-out has punchHours 0, and every
aggregate row's total equals the total computed from the closed punches
alone — open punches contribute nothing for any range, with no
dependence on elapsed wall-clock time (the aggregation never reads a
current time). -/
theorem openPunch_contributes_zero (s : State) (a b : ℤ) (row : DailyRow)
    (p : Punch) (hp : p.clock_out = none)
    (hrow : row ∈ aggregate s a b) :
    punchHours p = 0 ∧
    row.hours = groupHours
      (recsOf s.users (s.punches.filter (fun q => q.clock_out.isSome)) a b)
      (row.full_name, row.date) := by
  constructor
  · simp [punchHours, hp]
  · rcases mem_aggregate.mp hrow with ⟨k, hk, rfl⟩
    exact groupHours_closed s.users a b k s.punches

/-- Claim C7 witness: applied to mixState (one closed 5-hour punch, one
open punch, same worker and date). -/
theorem openPunch_contributes_zero_witness :
    punchHours ⟨2, 1, 20, none, (""), (""), false⟩ = 0 ∧
    mixRow.hours = groupHours
      (recsOf mixState.users
        (mixState.punches.filter (fun q => q.clock_out.isSome)) 0 0)
      (mixRow.full_name, mixRow.date) := by
  have hagg : aggregate mixState 0 0 = [mixRow] := by
    norm_num [aggregate, recsOf, recFor, inRange, dayOf, userOf, keysOf,
      groupOf, groupHours, groupRate, rowFor, otOf, listMax, punchHours,
      round2, round_eq, mixState, mixRow, erikW, List.filterMap,
      List.dedup, List.find?, List.filter]
  have hm : mixRow ∈ aggregate mixState 0 0 := by
    rw [hagg]
    exact List.Mem.head _
  exact openPunch_contributes_zero mixState 0 0 mixRow _ rfl hm

/-- Claim C8 (amended): every aggregate row satisfies the spec's formulas
— hours are the per-punch two-decimal-rounded durations summed over the
row's group, overtime is the clip of hours minus 8 at zero, regular
hours the remainder, pay regular times rate plus overtime times rate
times 1.5 — but the group is keyed by worker display name (with the
maximum hourly rate in the group), not by worker id. -/
theorem aggregate_row_formula (s : State) (a b : ℤ) (row : DailyRow)
    (hrow : row ∈ aggregate s a b) :
    row.hours = groupHours (recsOf s.users s.punches a b)
      (row.full_name, row.date) ∧
    row.hourly_rate = groupRate (recsOf s.users s.punches a b)
      (row.full_name, row.date) ∧
    row.ot_hours = max (row.hours - 8) 0 ∧
    row.reg_hours = row.hours - row.ot_hours ∧
    row.pay = row.reg_hours * row.hourly_rate
      + row.ot_hours * row.hourly_rate * (3 / 2) ∧
    (∀ q : Punch, ∀ t : ℚ, q.clock_out = some t →
      punchHours q = round2 (t - q.clock_in)) := by
  rcases mem_aggregate.mp hrow with ⟨k, hk, rfl⟩
  refine ⟨rfl, rfl, rfl, rfl, rfl, ?_⟩
  intro q t hq
  simp [punchHours, hq]

/-- Claim C8 counterexample: two distinct workers share the name
"Anna A"; the implementation merges their punches into one row of 10
hours with the larger of the two rates, while grouping per worker (as
the claim states, rendered by aggregateByWorkerSpec) yields two rows of
5 hours each at the workers' own rates. -/
theorem aggregate_perWorker_cex :
    annaOne.full_name = annaTwo.full_name ∧ annaOne.id ≠ annaTwo.id ∧
    aggregate sharedNameState 0 0 = [mergedRow] ∧
    (aggregateByWorkerSpec sharedNameState 0 0).length = 2 ∧
    workerDayHours sharedNameState.punches annaOne.id 0 = 5 ∧
    workerDayHours sharedNameState.punches annaTwo.id 0 = 5 := by
  refine ⟨rfl, by decide, ?_, ?_, ?_, ?_⟩
  · norm_num [aggregate, recsOf, recFor, inRange, dayOf, userOf, keysOf,
      groupOf, groupHours, groupRate, rowFor, otOf, listMax, punchHours,
      round2, round_eq, sharedNameState, annaOne, annaTwo, mergedRow,
      List.filterMap, List.dedup, List.find?, List.filter]
  · norm_num [aggregateByWorkerSpec, inRange, dayOf, userOf, otOf,
      punchHours, round2, round_eq, sharedNameState, annaOne, annaTwo,
      List.filterMap, List.dedup, List.find?, List.filter]
  · norm_num [workerDayHours, punchHours, round2, round_eq, dayOf,
      sharedNameState, annaOne, List.filter]
  · norm_num [workerDayHours, punchHours, round2, round_eq, dayOf,
      sharedNameState, annaTwo, List.filter]

/-- Claim C8 witness: the formulas instantiated on the merged row of
sharedNameState. -/
theorem aggregate_formula_witness :
    mergedRow.hours = groupHours
      (recsOf sharedNameState.users sharedNameState.punches 0 0)
      (mergedRow.full_name, mergedRow.date) ∧
    mergedRow.ot_hours = max (mergedRow.hours - 8) 0 ∧
    mergedRow.reg_hours = mergedRow.hours - mergedRow.ot_hours ∧
    mergedRow.pay = mergedRow.reg_hours * mergedRow.hourly_rate
      + mergedRow.ot_hours * mergedRow.hourly_rate * (3 / 2) := by
  have hagg : aggregate sharedNameState 0 0 = [mergedRow] := by
    norm_num [aggregate, recsOf, recFor, inRange, dayOf, userOf, keysOf,
      groupOf, groupHours, groupRate, rowFor, otOf, listMax, punchHours,
      round2, round_eq, sharedNameState, annaOne, annaTwo, mergedRow,
      List.filterMap, List.dedup, List.find?, List.filter]
  have hm : mergedRow ∈ aggregate sharedNameState 0 0 := by
    rw [hagg]
    exact List.Mem.head _
  have h := aggregate_row_formula sharedNameState 0 0 mergedRow hm
  exact ⟨h.1, h.2.2.1, h.2.2.2.1, h.2.2.2.2.1⟩

theorem foldl_pick_mem (ps : List Punch) :
    ∀ p0 : Punch,
      ps.foldl (fun q r => if q.id ≤ r.id then r else q) p0 = p0 ∨
      ps.foldl (fun q r => if q.id ≤ r.id then r else q) p0 ∈ ps := by
  induction ps with
  | nil =>
    intro p0
    left
    rfl
  | cons x xs ih =>
    intro p0
    rw [List.foldl_cons]
    rcases ih (if p0.id ≤ x.id then x else p0) with h | h
    · rw [h]
      by_cases hc : p0.id ≤ x.id
      · right
        rw [if_pos hc]
        exact List.Mem.head _
      · left
        rw [if_neg hc]
    · right
      exact List.Mem.tail _ h

theorem latestOpen_mem {s : State} {uid : Nat} {p : Punch}
    (h : latestOpen s uid = some p) :
    p ∈ s.punches ∧ p.user_id = uid ∧ p.clock_out = none := by
  have hop : p ∈ openList s uid := by
    cases hL : openList s uid with
    | nil => rw [latestOpen, hL] at h; cases h
    | cons q qs =>
      rw [latestOpen, hL] at h
      injection h with h
      rcases foldl_pick_mem qs q with h2 | h2
      · rw [h2] at h
        rw [← h]
        exact List.Mem.head _
      · rw [← h]
        exact List.Mem.tail _ h2
  rw [openList, List.mem_filter] at hop
  have := of_decide_eq_true hop.2
  exact ⟨hop.1, this.1, this.2⟩

/-- Claim C9: clockOut on the worker's open punch succeeds, sets
clock-out to the supplied current time, and appends the note and
location texts onto the record's existing fields (prior content is
preserved as a prefix of the new value; nothing is overwritten). -/
theorem clockOut_appends (s : State) (uid : Nat) (now : ℚ) (n l : String)
    (p : Punch) (h : latestOpen s uid = some p) :
    p ∈ s.punches ∧ p.user_id = uid ∧ p.clock_out = none ∧
    clockOutAction s uid now n l = Except.ok { s with
      punches := s.punches.map
        (fun q => if q.id = p.id then closePunch now n l q else q) } ∧
    (closePunch now n l p).clock_out = some now ∧
    (closePunch now n l p).note = p.note ++ appendTag n ∧
    (closePunch now n l p).location = p.location ++ appendTag l ∧
    (closePunch now n l p).approved = p.approved := by
  obtain ⟨h1, h2, h3⟩ := latestOpen_mem h
  refine ⟨h1, h2, h3, ?_, rfl, rfl, rfl, rfl⟩
  rw [clockOutAction, h]

/-- Claim C9 witness: closing openP in c9State at hour 17. -/
theorem clockOut_appends_witness :
    openP ∈ c9State.punches ∧ openP.user_id = 1 ∧
    openP.clock_out = none ∧
    clockOutAction c9State 1 17 ("done") ("Kitchen") =
      Except.ok { c9State with
        punches := c9State.punches.map
          (fun q => if q.id = openP.id then
            closePunch 17 ("done") ("Kitchen") q else q) } ∧
    (closePunch 17 ("done") ("Kitchen") openP).clock_out = some 17 ∧
    (closePunch 17 ("done") ("Kitchen") openP).note =
      openP.note ++ appendTag ("done") ∧
    (closePunch 17 ("done") ("Kitchen") openP).location =
      openP.location ++ appendTag ("Kitchen") ∧
    (closePunch 17 ("done") ("Kitchen") openP).approved =
      openP.approved :=
  clockOut_appends c9State 1 17 ("done") ("Kitchen") openP rfl

theorem userOf_self {us : List Worker}
    (hnd : (us.map Worker.id).Nodup) {u : Worker} (hu : u ∈ us) :
    userOf us u.id = some u := by
  induction us with
  | nil => cases hu
  | cons v vs ih =>
    simp only [List.map_cons, List.nodup_cons] at hnd
    rcases List.mem_cons.mp hu with rfl | hu'
    · exact List.find?_cons_of_pos _ (by simp)
    · have hne : ¬(v.id = u.id) := by
        intro he
        exact hnd.1 (he ▸ List.mem_map_of_mem Worker.id hu')
      rw [userOf, List.find?_cons_of_neg _ (by simp [hne])]
      exact ih hnd.2 hu'

theorem userOf_spec {us : List Worker} {uid : Nat} {u : Worker}
    (h : userOf us uid = some u) : u ∈ us ∧ u.id = uid := by
  have h1 := List.mem_of_find?_eq_some h
  have h2 := List.find?_some h
  exact ⟨h1, of_decide_eq_true h2⟩

theorem workerDayHours_cons (p : Punch) (ps : List Punch) (uid : Nat)
    (d : ℤ) :
    workerDayHours (p :: ps) uid d =
      (if p.user_id = uid ∧ dayOf p.clock_in = d then punchHours p
        else 0) + workerDayHours ps uid d := by
  unfold workerDayHours
  rw [List.filter_cons]
  by_cases hc : p.user_id = uid ∧ dayOf p.clock_in = d
  · simp [hc]
  · simp [hc]

theorem contrib_split (us : List Worker) (a b d : ℤ) (N : String)
    (u1 u2 : Worker) (hnd : (us.map Worker.id).Nodup)
    (hu1 : u1 ∈ us) (hu2 : u2 ∈ us) (hne : u1.id ≠ u2.id)
    (hn1 : u1.full_name = N) (hn2 : u2.full_name = N)
    (honly : ∀ u ∈ us, u.full_name = N → u = u1 ∨ u = u2)
    (had : a ≤ d) (hdb : d ≤ b) (p : Punch) :
    contrib us a b (N, d) p =
      (if p.user_id = u1.id ∧ dayOf p.clock_in = d then punchHours p
        else 0) +
      (if p.user_id = u2.id ∧ dayOf p.clock_in = d then punchHours p
        else 0) := by
  cases hf : recFor us a b p with
  | none =>
    rw [contrib_of_recFor_none hf]
    have g1 : ¬(p.user_id = u1.id ∧ dayOf p.clock_in = d) := by
      rintro ⟨hpu, hpd⟩
      have hin : inRange a b p = true := by
        rw [inRange, hpd]
        exact decide_eq_true ⟨had, hdb⟩
      rw [recFor, if_pos hin, hpu, userOf_self hnd hu1] at hf
      cases hf
    have g2 : ¬(p.user_id = u2.id ∧ dayOf p.clock_in = d) := by
      rintro ⟨hpu, hpd⟩
      have hin : inRange a b p = true := by
        rw [inRange, hpd]
        exact decide_eq_true ⟨had, hdb⟩
      rw [recFor, if_pos hin, hpu, userOf_self hnd hu2] at hf
      cases hf
    rw [if_neg g1, if_neg g2]
    norm_num
  | some r =>
    rw [contrib_of_recFor_some hf]
    rcases recFor_eq_some.mp hf with ⟨hin, u, hu, hreq⟩
    obtain ⟨humem, huid⟩ := userOf_spec hu
    have hrn : r.name = u.full_name := by rw [hreq]
    have hrd : r.day = dayOf p.clock_in := by rw [hreq]
    have hrh : r.hours = punchHours p := by rw [hreq]
    by_cases h1 : p.user_id = u1.id ∧ dayOf p.clock_in = d
    · have hu1eq : u = u1 := by
        have hself := userOf_self hnd hu1
        rw [h1.1] at hu
        rw [hu] at hself
        exact Option.some.inj hself
      have hkey : ((r.name, r.day) : String × ℤ) = (N, d) := by
        rw [hrn, hrd, hu1eq, hn1, h1.2]
      have h2f : ¬(p.user_id = u2.id ∧ dayOf p.clock_in = d) := by
        rintro ⟨hpu, _⟩
        exact hne (h1.1 ▸ hpu)
      rw [if_pos hkey, if_pos h1, if_neg h2f, hrh]
      norm_num
    · by_cases h2 : p.user_id = u2.id ∧ dayOf p.clock_in = d
      · have hu2eq : u = u2 := by
          have hself := userOf_self hnd hu2
          rw [h2.1] at hu
          rw [hu] at hself
          exact Option.some.inj hself
        have hkey : ((r.name, r.day) : String × ℤ) = (N, d) := by
          rw [hrn, hrd, hu2eq, hn2, h2.2]
        rw [if_pos hkey, if_neg h1, if_pos h2, hrh]
        norm_num
      · have hkey : ¬(((r.name, r.day) : String × ℤ) = (N, d)) := by
          rintro hk
          rw [hrn, hrd] at hk
          simp only [Prod.mk.injEq] at hk
          rcases honly u humem hk.1 with rfl | rfl
          · exact h1 ⟨huid.symm, hk.2⟩
          · exact h2 ⟨huid.symm, hk.2⟩
        rw [if_neg hkey, if_neg h1, if_neg h2]
        norm_num

theorem groupHours_split (us : List Worker) (a b d : ℤ) (N : String)
    (u1 u2 : Worker) (hnd : (us.map Worker.id).Nodup)
    (hu1 : u1 ∈ us) (hu2 : u2 ∈ us) (hne : u1.id ≠ u2.id)
    (hn1 : u1.full_name = N) (hn2 : u2.full_name = N)
    (honly : ∀ u ∈ us, u.full_name = N → u = u1 ∨ u = u2)
    (had : a ≤ d) (hdb : d ≤ b) (ps : List Punch) :
    groupHours (recsOf us ps a b) (N, d) =
      workerDayHours ps u1.id d + workerDayHours ps u2.id d := by
  induction ps with
  | nil => norm_num [groupHours, recsOf, groupOf, workerDayHours]
  | cons p ps ih =>
    rw [groupHours_cons,
      contrib_split us a b d N u1 u2 hnd hu1 hu2 hne hn1 hn2 honly had
        hdb p, ih, workerDayHours_cons, workerDayHours_cons]
    ring

theorem le_foldl_max (l : List ℚ) :
    ∀ a x : ℚ, (x = a ∨ x ∈ l) → x ≤ l.foldl max a := by
  induction l with
  | nil =>
    intro a x h
    rcases h with rfl | h
    · exact le_rfl
    · cases h
  | cons y ys ih =>
    intro a x h
    rw [List.foldl_cons]
    rcases h with rfl | h
    · exact le_trans (le_max_left x y) (ih (max x y) (max x y) (Or.inl rfl))
    · rcases List.mem_cons.mp h with rfl | h2
      · exact le_trans (le_max_right a x) (ih (max a x) (max a x) (Or.inl rfl))
      · exact ih (max a y) x (Or.inr h2)

theorem foldl_max_le (l : List ℚ) :
    ∀ a m : ℚ, a ≤ m → (∀ x ∈ l, x ≤ m) → l.foldl max a ≤ m := by
  induction l with
  | nil =>
    intro a m ha _
    exact ha
  | cons y ys ih =>
    intro a m ha h
    rw [List.foldl_cons]
    exact ih (max a y) m (max_le ha (h y (List.Mem.head _)))
      (fun x hx => h x (List.Mem.tail _ hx))

theorem le_listMax {l : List ℚ} {x : ℚ} (h : x ∈ l) : x ≤ listMax l := by
  cases l with
  | nil => cases h
  | cons y ys =>
    rw [listMax]
    rcases List.mem_cons.mp h with rfl | h2
    · exact le_foldl_max ys x x (Or.inl rfl)
    · exact le_foldl_max ys y x (Or.inr h2)

theorem listMax_le {l : List ℚ} {m : ℚ} (hne : l ≠ [])
    (h : ∀ x ∈ l, x ≤ m) : listMax l ≤ m := by
  cases l with
  | nil => cases hne rfl
  | cons y ys =>
    rw [listMax]
    exact foldl_max_le ys y m (h y (List.Mem.head _))
      (fun x hx => h x (List.Mem.tail _ hx))

theorem mem_groupOf {rs : List AggRec} {k : String × ℤ} {r : AggRec} :
    r ∈ groupOf rs k ↔ r ∈ rs ∧ (r.name, r.day) = k := by
  simp [groupOf, List.mem_filter]

theorem groupRate_max (us : List Worker) (ps : List Punch) (a b d : ℤ)
    (N : String) (u1 u2 : Worker) (hnd : (us.map Worker.id).Nodup)
    (hu1 : u1 ∈ us) (hu2 : u2 ∈ us)
    (hn1 : u1.full_name = N) (hn2 : u2.full_name = N)
    (honly : ∀ u ∈ us, u.full_name = N → u = u1 ∨ u = u2)
    (hp1 : ∃ p ∈ ps, p.user_id = u1.id ∧ dayOf p.clock_in = d)
    (hp2 : ∃ p ∈ ps, p.user_id = u2.id ∧ dayOf p.clock_in = d)
    (had : a ≤ d) (hdb : d ≤ b) :
    groupRate (recsOf us ps a b) (N, d) =
      max u1.hourly_rate u2.hourly_rate := by
  obtain ⟨p1, hp1m, hp1u, hp1d⟩ := hp1
  obtain ⟨p2, hp2m, hp2u, hp2d⟩ := hp2
  have hin1 : inRange a b p1 = true := by
    rw [inRange, hp1d]
    exact decide_eq_true ⟨had, hdb⟩
  have hin2 : inRange a b p2 = true := by
    rw [inRange, hp2d]
    exact decide_eq_true ⟨had, hdb⟩
  have hr1 : (⟨u1.full_name, dayOf p1.clock_in, punchHours p1,
      u1.hourly_rate⟩ : AggRec) ∈ groupOf (recsOf us ps a b) (N, d) := by
    rw [mem_groupOf]
    refine ⟨mem_recsOf.mpr ⟨p1, hp1m, recFor_eq_some.mpr
      ⟨hin1, u1, by rw [hp1u]; exact userOf_self hnd hu1, rfl⟩⟩, ?_⟩
    simp [hn1, hp1d]
  have hr2 : (⟨u2.full_name, dayOf p2.clock_in, punchHours p2,
      u2.hourly_rate⟩ : AggRec) ∈ groupOf (recsOf us ps a b) (N, d) := by
    rw [mem_groupOf]
    refine ⟨mem_recsOf.mpr ⟨p2, hp2m, recFor_eq_some.mpr
      ⟨hin2, u2, by rw [hp2u]; exact userOf_self hnd hu2, rfl⟩⟩, ?_⟩
    simp [hn2, hp2d]
  have hmem1 : u1.hourly_rate ∈
      (groupOf (recsOf us ps a b) (N, d)).map AggRec.rate :=
    List.mem_map_of_mem AggRec.rate hr1
  have hmem2 : u2.hourly_rate ∈
      (groupOf (recsOf us ps a b) (N, d)).map AggRec.rate :=
    List.mem_map_of_mem AggRec.rate hr2
  have hbound : ∀ x ∈ (groupOf (recsOf us ps a b) (N, d)).map
      AggRec.rate, x ≤ max u1.hourly_rate u2.hourly_rate := by
    intro x hx
    rcases List.mem_map.mp hx with ⟨r, hr, rfl⟩
    rcases mem_groupOf.mp hr with ⟨hrs, hk⟩
    rcases mem_recsOf.mp hrs with ⟨p, hpm, hf⟩
    rcases recFor_eq_some.mp hf with ⟨hin, u, hu, rfl⟩
    simp only [Prod.mk.injEq] at hk
    rcases honly u (userOf_spec hu).1 hk.1 with rfl | rfl
    · exact le_max_left _ _
    · exact le_max_right _ _
  unfold groupRate
  apply le_antisymm
  · exact listMax_le (List.ne_nil_of_mem hmem1) hbound
  · exact max_le (le_listMax hmem1) (le_listMax hmem2)

theorem filter_rowFor_nodup (rs : List AggRec) (k : String × ℤ) :
    ∀ ks : List (String × ℤ), ks.Nodup → k ∈ ks →
      (ks.map (rowFor rs)).filter
        (fun row => decide (row.full_name = k.1 ∧ row.date = k.2)) =
      [rowFor rs k] := by
  intro ks
  induction ks with
  | nil =>
    intro _ h
    cases h
  | cons k0 ks ih =>
    intro hnd hk
    obtain ⟨hnotin, hnd'⟩ := List.nodup_cons.mp hnd
    simp only [List.map_cons, List.filter_cons]
    rcases List.mem_cons.mp hk with rfl | hk'
    · rw [if_pos (decide_eq_true (⟨rfl, rfl⟩ :
        (rowFor rs k).full_name = k.1 ∧ (rowFor rs k).date = k.2))]
      have hrest : (ks.map (rowFor rs)).filter
          (fun row => decide (row.full_name = k.1 ∧ row.date = k.2)) =
          [] := by
        rw [List.filter_eq_nil_iff]
        intro row hrow
        rcases List.mem_map.mp hrow with ⟨k', hk', rfl⟩
        simp only [decide_eq_true_eq, not_and]
        intro h1 h2
        exact absurd ((Prod.ext h1 h2 : k' = k) ▸ hk') hnotin
      rw [hrest]
    · have hne0 : ¬((rowFor rs k0).full_name = k.1 ∧
          (rowFor rs k0).date = k.2) := by
        rintro ⟨h1, h2⟩
        exact absurd ((Prod.ext h1 h2 : k0 = k).symm ▸ hk') hnotin
      rw [if_neg (by simpa using hne0)]
      exact ih hnd' hk'

/-- Claim C10: aggregation groups by worker display name: when exactly
two distinct workers share a name and each has a punch (here a closed
one) on the same date in range, the report holds exactly one row for
that (name, date), whose hours are the sum of the two workers' per-day
totals and whose rate is the maximum of the two rates. -/
theorem aggregate_merges_sameName (s : State) (a b d : ℤ) (N : String)
    (u1 u2 : Worker) (hnd : (s.users.map Worker.id).Nodup)
    (hu1 : u1 ∈ s.users) (hu2 : u2 ∈ s.users) (hne : u1.id ≠ u2.id)
    (hn1 : u1.full_name = N) (hn2 : u2.full_name = N)
    (honly : ∀ u ∈ s.users, u.full_name = N → u = u1 ∨ u = u2)
    (hp1 : ∃ p ∈ s.punches, p.user_id = u1.id ∧
      dayOf p.clock_in = d ∧ p.clock_out ≠ none)
    (hp2 : ∃ p ∈ s.punches, p.user_id = u2.id ∧
      dayOf p.clock_in = d ∧ p.clock_out ≠ none)
    (had : a ≤ d) (hdb : d ≤ b) :
    ((aggregate s a b).filter
      (fun row => decide (row.full_name = N ∧ row.date = d))).length
      = 1 ∧
    (∀ row ∈ aggregate s a b, row.full_name = N → row.date = d →
      row.hours = workerDayHours s.punches u1.id d +
        workerDayHours s.punches u2.id d ∧
      row.hourly_rate = max u1.hourly_rate u2.hourly_rate) := by
  have hp1' : ∃ p ∈ s.punches, p.user_id = u1.id ∧
      dayOf p.clock_in = d := by
    obtain ⟨p, hp, h1, h2, _⟩ := hp1
    exact ⟨p, hp, h1, h2⟩
  have hp2' : ∃ p ∈ s.punches, p.user_id = u2.id ∧
      dayOf p.clock_in = d := by
    obtain ⟨p, hp, h1, h2, _⟩ := hp2
    exact ⟨p, hp, h1, h2⟩
  have hkmem : (N, d) ∈ keysOf (recsOf s.users s.punches a b) := by
    obtain ⟨p1, hp1m, hp1u, hp1d⟩ := hp1'
    have hin1 : inRange a b p1 = true := by
      rw [inRange, hp1d]
      exact decide_eq_true ⟨had, hdb⟩
    exact mem_keysOf.mpr ⟨⟨u1.full_name, dayOf p1.clock_in,
      punchHours p1, u1.hourly_rate⟩,
      mem_recsOf.mpr ⟨p1, hp1m, recFor_eq_some.mpr
        ⟨hin1, u1, by rw [hp1u]; exact userOf_self hnd hu1, rfl⟩⟩,
      by simp [hn1, hp1d]⟩
  constructor
  · have huniq := filter_rowFor_nodup (recsOf s.users s.punches a b)
      (N, d) (keysOf (recsOf s.users s.punches a b))
      (List.nodup_dedup _) hkmem
    rw [aggregate, huniq]
    rfl
  · intro row hrow h1 h2
    rcases mem_aggregate.mp hrow with ⟨k, hk, rfl⟩
    have hkeq : k = (N, d) := by
      have e1 : k.1 = N := h1
      have e2 : k.2 = d := h2
      exact Prod.ext e1 e2
    rw [hkeq]
    exact ⟨groupHours_split s.users a b d N u1 u2 hnd hu1 hu2 hne hn1
        hn2 honly had hdb s.punches,
      groupRate_max s.users s.punches a b d N u1 u2 hnd hu1 hu2 hn1
        hn2 honly hp1' hp2' had hdb⟩

/-- Claim C10 witness: the merging applied to sharedNameState on day 0. -/
theorem aggregate_merges_sameName_witness :
    ((aggregate sharedNameState 0 0).filter
      (fun row => decide (row.full_name = ("Anna A") ∧ row.date = 0))).length
      = 1 ∧
    mergedRow.hours = workerDayHours sharedNameState.punches annaOne.id 0 +
      workerDayHours sharedNameState.punches annaTwo.id 0 ∧
    mergedRow.hourly_rate = max annaOne.hourly_rate annaTwo.hourly_rate := by
  have honly : ∀ u ∈ sharedNameState.users, u.full_name = ("Anna A") →
      u = annaOne ∨ u = annaTwo := by
    intro u hu _
    rcases List.mem_cons.mp hu with rfl | hu'
    · exact Or.inl rfl
    · rcases List.mem_cons.mp hu' with rfl | hu''
      · exact Or.inr rfl
      · cases hu''
  have hp1 : ∃ p ∈ sharedNameState.punches, p.user_id = annaOne.id ∧
      dayOf p.clock_in = 0 ∧ p.clock_out ≠ none :=
    ⟨⟨1, 1, 0, some 5, (""), (""), false⟩, List.Mem.head _, rfl,
      by norm_num [dayOf], by simp⟩
  have hp2 : ∃ p ∈ sharedNameState.punches, p.user_id = annaTwo.id ∧
      dayOf p.clock_in = 0 ∧ p.clock_out ≠ none :=
    ⟨⟨2, 2, 0, some 5, (""), (""), false⟩,
      List.Mem.tail _ (List.Mem.head _), rfl,
      by norm_num [dayOf], by simp⟩
  have h := aggregate_merges_sameName sharedNameState 0 0 0 ("Anna A")
    annaOne annaTwo (by decide) (List.Mem.head _)
    (List.Mem.tail _ (List.Mem.head _)) (by decide) rfl rfl honly hp1 hp2
    le_rfl le_rfl
  have hagg : aggregate sharedNameState 0 0 = [mergedRow] := by
    norm_num [aggregate, recsOf, recFor, inRange, dayOf, userOf, keysOf,
      groupOf, groupHours, groupRate, rowFor, otOf, listMax, punchHours,
      round2, round_eq, sharedNameState, annaOne, annaTwo, mergedRow,
      List.filterMap, List.dedup, List.find?, List.filter]
  have hm : mergedRow ∈ aggregate sharedNameState 0 0 := by
    rw [hagg]
    exact List.Mem.head _
  exact ⟨h.1, h.2 mergedRow hm rfl rfl⟩

end Tidsapp
